/-
Verification of the context-rag embedding subsystem.

Shallow embedding of the two Python source files:
  * `src/python/fast_embedder.py`  (class `FastEmbedder`)
  * `src/python/embedder.py`       (class `ContextRagEmbedder`)

Modelling conventions:
  * Python floats are modelled as real numbers (`ℝ`); `np.linalg.norm` is the
    L2 norm `Real.sqrt (sum of squares)`.
  * `hashlib.md5(word.encode()).hexdigest()` is modelled by an abstract
    parameter `digest : String → String`; theorems that need the digest shape
    assume its output has length 32 (a fixed-size hex digest), which the
    concrete md5 hexdigest satisfies.
  * `hashlib.sha256(text.encode()).hexdigest()` is likewise an abstract
    parameter `sha256hex : String → String`.
  * `self.model.encode texts` (which may raise) is an oracle
    `enc : List τ → Option (List (List ℝ))`, `none` meaning the call raised.
  * The embedding cache directory is a state `String → Option CacheFile`
    mapping a cache key to the parsed content of `<key>.json` (`corrupt` for a
    file that exists but fails to parse/load), and cache-write failures are
    modelled by a parameter `writeOk : String → Bool`.
  * Python dicts (chunks) are finite-map-like functions `String → Option JVal`.
  * Exceptions escaping a function are modelled with `Except String`.
-/
import Mathlib

set_option maxRecDepth 8000

namespace FastEmbedder

/-- Python: `self.vocab_size = 384` in `FastEmbedder.__init__`. -/
def vocab_size : ℕ := 384

/-- Value of a single hexadecimal digit, as `int(c, 16)` computes it
(`0`-`9`, `a`-`f`, `A`-`F`); other characters are irrelevant here. -/
def hexDigit (c : Char) : ℕ :=
  if 48 ≤ c.toNat ∧ c.toNat ≤ 57 then c.toNat - 48
  else if 97 ≤ c.toNat ∧ c.toNat ≤ 102 then c.toNat - 87
  else if 65 ≤ c.toNat ∧ c.toNat ≤ 70 then c.toNat - 55
  else 0

/-- Python: `int(word_hash[i:i+2], 16)` for `i in range(0, n, 2)` — the list
of byte values read from consecutive 2-hex-character groups (a trailing
single character is parsed as a 1-digit number, as `int` would). -/
def hexPairs : List Char → List ℕ
  | c1 :: c2 :: rest => (16 * hexDigit c1 + hexDigit c2) :: hexPairs rest
  | [c] => [hexDigit c]
  | [] => []

/-- Python: `np.linalg.norm(v)` — the L2 norm. -/
noncomputable def l2norm (v : List ℝ) : ℝ :=
  Real.sqrt ((v.map (fun x => x ^ 2)).sum)

/-- Python: `if norm > 0: v = v / norm` — elementwise division by the L2
norm when it is positive, otherwise the vector is returned unchanged. -/
noncomputable def normalize (v : List ℝ) : List ℝ :=
  if 0 < l2norm v then v.map (fun x => x / l2norm v) else v

/-- The vector built in `FastEmbedder.get_word_embedding` before the final
normalization step: hash bytes rescaled by `int(..)/255.0 - 0.5`, then
padded with zeros (`np.pad`) or truncated to `vocab_size` entries.
`word_hash.take (vocab_size * 2)` models `range(0, min(len(word_hash),
self.vocab_size * 2), 2)`. -/
noncomputable def word_pre_embedding (digest : String → String) (word : String) : List ℝ :=
  let word_hash := (digest word).toList
  let embedding := (hexPairs (word_hash.take (vocab_size * 2))).map
    (fun b : ℕ => (b : ℝ) / 255.0 - 0.5)
  if embedding.length < vocab_size then
    embedding ++ List.replicate (vocab_size - embedding.length) 0
  else
    embedding.take vocab_size

/-- Python: `FastEmbedder.get_word_embedding` (the `word_cache` memoization
is semantically transparent and omitted). -/
noncomputable def get_word_embedding (digest : String → String) (word : String) : List ℝ :=
  normalize (word_pre_embedding digest word)

/-- Character class of Python's regex `\w` on ASCII text: alphanumeric or
underscore. -/
def isWordChar (c : Char) : Bool := c.isAlphanum || c == '_'

/-- Maximal runs of word characters in a character list: the ASCII semantics
of `re.findall(r'\b\w+\b', ·)` (the `\b` anchors are redundant around a
maximal `\w+` run). -/
def wordRuns : List Char → List (List Char)
  | [] => []
  | c :: cs =>
    let rest := wordRuns cs
    if isWordChar c then
      match cs with
      | [] => [[c]]
      | c2 :: _ =>
        if isWordChar c2 then
          match rest with
          | r :: rs => (c :: r) :: rs
          | [] => [[c]]
        else [c] :: rest
    else rest

/-- Python: `FastEmbedder.tokenize` — lower-case the text
(`text.lower()`), then extract the maximal alphanumeric/underscore runs
(`re.findall(r'\b\w+\b', ...)`). -/
def tokenize (text : String) : List String :=
  (wordRuns (text.toList.map Char.toLower)).map (fun r => String.mk r)

/-- Distinct elements of a list in order of first occurrence — the key
order of a Python `Counter` (or `dict`) built from the list. -/
def firstOcc : List String → List String
  | [] => []
  | w :: ws => w :: firstOcc (ws.filter (fun x => decide (x ≠ w)))
  termination_by l => l.length
  decreasing_by
    simp only [List.length_cons]
    exact Nat.lt_succ_of_le (List.length_filter_le _ _)

/-- Python: `Counter(tokens).items()` — each distinct token (in first
occurrence order) paired with its number of occurrences. -/
def counterItems (tokens : List String) : List (String × ℕ) :=
  (firstOcc tokens).map (fun w => (w, tokens.count w))

/-- Elementwise sum of two numpy vectors (`a + b`). -/
def vadd (a b : List ℝ) : List ℝ := List.zipWith (fun x y => x + y) a b

/-- Numpy `v * c`: elementwise scaling of a vector by a scalar. -/
def smul (v : List ℝ) (c : ℝ) : List ℝ := v.map (fun x => x * c)

/-- Python: `FastEmbedder.embed_text` — tokenize; an empty token list
yields the zero vector; otherwise accumulate
`text_embedding += word_emb * tf_weight` over `Counter(tokens).items()`
starting from `np.zeros(vocab_size)` and normalize the result. -/
noncomputable def embed_text (digest : String → String) (text : String) : List ℝ :=
  let tokens := tokenize text
  if tokens = [] then List.replicate vocab_size 0
  else
    let total_words := tokens.length
    let acc := (counterItems tokens).foldl
      (fun acc wc => vadd acc (smul (get_word_embedding digest wc.1) ((wc.2 : ℝ) / (total_words : ℝ))))
      (List.replicate vocab_size 0)
    normalize acc

end FastEmbedder

namespace TextAggregatorSpec

open FastEmbedder

/-- Modelled from the spec, section 4.2 / claim C4 reference definition:
tokenize (lower-cased maximal alphanumeric/underscore runs); an empty token
set yields the all-zero vector of dimension 384; otherwise sum, over the
distinct tokens (here taken in `List.dedup` order, which keeps the last
occurrence of each token — a different order than the code's `Counter`),
the term frequency `occurrences / total` times the token's word vector, and
renormalize to unit L2 norm (a zero vector stays zero). -/
noncomputable def specEmbedText (digest : String → String) (text : String) : List ℝ :=
  let tokens := tokenize text
  if tokens = [] then List.replicate 384 0
  else
    let total := tokens.length
    let acc := (tokens.dedup.map (fun w => (w, tokens.count w))).foldl
      (fun acc wc => vadd acc (smul (get_word_embedding digest wc.1) ((wc.2 : ℝ) / (total : ℝ))))
      (List.replicate 384 0)
    normalize acc

end TextAggregatorSpec

namespace WordHasherSpec

open FastEmbedder

/-- Modelled from the spec, section 4.1 / claim C3 reference definition:
compute a fixed-size cryptographic digest of the token; read consecutive
2-hex-character groups of the digest as byte values in [0,255]; map each
byte b to b/255 - 0.5; zero-pad or truncate the resulting sequence to
exactly D = 384 values; renormalize to unit L2 norm, leaving a vector of
norm exactly zero unchanged. -/
noncomputable def specWordVector (digest : String → String) (word : String) : List ℝ :=
  let bytes := hexPairs (digest word).toList
  let vals := bytes.map (fun b : ℕ => (b : ℝ) / 255 - 1 / 2)
  let padded := (vals ++ List.replicate (384 - vals.length) 0).take 384
  normalize padded

end WordHasherSpec

/-- JSON-compatible field value of a chunk record: strings, numbers,
embedding vectors (JSON arrays of numbers), and null stand in for the
arbitrary JSON values a chunk may carry. -/
inductive JVal where
  | null : JVal
  | str : String → JVal
  | num : ℝ → JVal
  | vec : List ℝ → JVal

/-- A Python chunk dict: a finite-map-like assignment of field names to
values (`none` = the key is absent). -/
abbrev Chunk : Type := String → Option JVal

/-- The everywhere-absent chunk, used only as a `getD` default. -/
def emptyChunk : Chunk := fun _ => none

/-- Python `d = chunk.copy(); d[k] = v`: the updated dict. -/
def setField (c : Chunk) (k : String) (v : JVal) : Chunk :=
  fun k2 => if k2 = k then some v else c k2

namespace ContextRagEmbedder

/-- Python: `ContextRagEmbedder.generate_embeddings`. The possibly-raising
`self.model.encode` call is the oracle `enc` (`none` = it raised). Returns
the embedding list together with a flag recording whether the
`"Error generating embeddings"` warning was printed. Empty input returns
`[]` without consulting the oracle; a raising oracle is caught, the warning
is logged, and the result degrades to `[]`. -/
def generate_embeddings {τ : Type} (enc : List τ → Option (List (List ℝ)))
    (texts : List τ) : List (List ℝ) × Bool :=
  match texts with
  | [] => ([], false)
  | _ :: _ =>
    match enc texts with
    | some embeddings => (embeddings, false)
    | none => ([], true)

/-- Parsed content of a cache file `<key>.json`: either a well-formed entry
with model name, text hash and embedding, or a file whose read fails
(`corrupt`, covering `json.load` errors and missing keys, which the code
treats as a cache miss). -/
inductive CacheFile where
  | corrupt : CacheFile
  | entry : String → String → List ℝ → CacheFile

/-- The cache directory contents: cache key to parsed file, `none` when no
file exists for that key. -/
abbrev CacheState : Type := String → Option CacheFile

/-- Result of one `embed_with_cache` call: the returned value or the
exception escaping the call, the cache directory afterwards, and whether
the batch-failure warning resp. the cache-write warning was printed. -/
structure EmbedOut where
  out : Except String (List ℝ)
  cache : CacheState
  warnedBatch : Bool
  warnedWrite : Bool

/-- Python: `ContextRagEmbedder.embed_with_cache`. `model_name` is
`self.model_name`; `sha256hex` abstracts the sha256 hexdigest of the text;
`writeOk key = false` means writing the cache file raises (logged as a
warning, result still returned). On a cache hit with matching model the
stored vector is returned; otherwise the code runs
`self.generate_embeddings([text])[0]` — when the batch degrades to `[]`
that subscript raises `IndexError` — and then best-effort writes the cache
entry. -/
def embed_with_cache (model_name : String) (sha256hex : String → String)
    (enc : List String → Option (List (List ℝ))) (writeOk : String → Bool)
    (cache : CacheState) (text : String) (cache_key : Option String) : EmbedOut :=
  let key := cache_key.getD (sha256hex text)
  let hit : Option (List ℝ) :=
    match cache key with
    | some (.entry m _ e) => if m = model_name then some e else none
    | some .corrupt => none
    | none => none
  match hit with
  | some e => ⟨.ok e, cache, false, false⟩
  | none =>
    match generate_embeddings enc [text] with
    | ([], warned) => ⟨.error "IndexError", cache, warned, false⟩
    | (e :: _, warned) =>
      if writeOk key then
        ⟨.ok e, fun k2 => if k2 = key then some (.entry model_name key e) else cache k2,
          warned, false⟩
      else
        ⟨.ok e, cache, warned, true⟩

/-- Python: the list comprehension extracting `chunk['content']` from every
chunk — evaluated left to right, raising `KeyError` at the first chunk
without a `content` field. -/
def extractContents : List Chunk → Except String (List JVal)
  | [] => .ok []
  | c :: cs =>
    match c "content" with
    | none => .error "KeyError"
    | some v =>
      match extractContents cs with
      | .error e => .error e
      | .ok vs => .ok (v :: vs)

/-- Python: `ContextRagEmbedder.embed_chunks` — extract every `content`
field, run one batch `generate_embeddings` call, and `zip` the chunks with
the returned vectors, attaching each vector to a copy of its chunk under
the `embedding` key. -/
def embed_chunks (enc : List JVal → Option (List (List ℝ)))
    (chunks_data : List Chunk) : Except String (List Chunk) :=
  match extractContents chunks_data with
  | .error e => .error e
  | .ok texts =>
    let embeddings := (generate_embeddings enc texts).1
    .ok ((chunks_data.zip embeddings).map
      (fun ce => setField ce.1 "embedding" (.vec ce.2)))

end ContextRagEmbedder

namespace FastEmbedder

/-- Python: `chunk.get('content', '')` followed by its use as a string in
`embed_text` — an absent field yields the empty string; a present
non-string value makes `text.lower()` raise `AttributeError`. -/
def getContent (c : Chunk) : Except String String :=
  match c "content" with
  | none => .ok ""
  | some (.str s) => .ok s
  | some _ => .error "AttributeError"

/-- Python: `FastEmbedder.embed_chunks` — for each chunk in order, embed
`chunk.get('content', '')` and append a copy of the chunk with the new
`embedding` field. -/
noncomputable def embed_chunks (digest : String → String) :
    List Chunk → Except String (List Chunk)
  | [] => .ok []
  | c :: cs =>
    match getContent c with
    | .error e => .error e
    | .ok s =>
      match embed_chunks digest cs with
      | .error e => .error e
      | .ok rest => .ok (setField c "embedding" (.vec (embed_text digest s)) :: rest)

end FastEmbedder

section Theorems

open FastEmbedder ContextRagEmbedder

/-- Helper: the empty text tokenizes to no tokens, so `embed_text` returns
the all-zero vector of dimension 384. -/
theorem embed_text_empty (digest : String → String) :
    embed_text digest "" = List.replicate 384 0 := rfl

/-- C7: `generate_embeddings` returns the empty sequence on an empty input
list without invoking the model (the result does not depend on the oracle
and no warning is printed), and if the model's batch inference raises, the
error is caught, the warning is logged, and the empty sequence is returned
— never a partial per-item result, never a propagated exception. -/
theorem generate_embeddings_degrades :
    (∀ (τ : Type) (enc enc2 : List τ → Option (List (List ℝ))),
      generate_embeddings enc ([] : List τ) = generate_embeddings enc2 []) ∧
    (∀ (τ : Type) (enc : List τ → Option (List (List ℝ))),
      generate_embeddings enc ([] : List τ) = ([], false)) ∧
    (∀ (τ : Type) (enc : List τ → Option (List (List ℝ))) (texts : List τ),
      enc texts = none → generate_embeddings enc texts = ([], !texts.isEmpty)) := by
  refine ⟨fun τ enc enc2 => rfl, fun τ enc => rfl, fun τ enc texts h => ?_⟩
  cases texts with
  | nil => rfl
  | cons t ts => simp [generate_embeddings, h]

/-- Witness for C7 at a concrete failing oracle and non-empty input. -/
theorem generate_embeddings_degrades_witness :
    generate_embeddings (fun _ : List String => (none : Option (List (List ℝ)))) ["x"]
      = ([], true) :=
  generate_embeddings_degrades.2.2 String _ ["x"] rfl

/-- C1 (code bug evidence): at a concrete uncached text whose batch
inference call fails, `embed_with_cache` does log the degradation warning,
but then `self.generate_embeddings([text])[0]` subscripts the degraded
empty list and the call raises `IndexError` to its caller instead of
returning a best-effort result. -/
theorem embed_with_cache_raises_on_batch_failure :
    embed_with_cache "all-MiniLM-L6-v2" (fun _ => "k") (fun _ => none)
        (fun _ => true) (fun _ => none) "hello" none
      = ⟨.error "IndexError", fun _ => none, true, false⟩ := rfl

/-- C9: the two strategies disagree at the public interface on a chunk
lacking the required `content` field: `FastEmbedder.embed_chunks` does not
fail — it substitutes the empty string and attaches the all-zero
384-dimension vector — whereas `ContextRagEmbedder.embed_chunks` fails
with a `KeyError` on the same input, whatever the model oracle does. -/
theorem strategies_disagree_on_missing_content :
    ∀ (c : Chunk) (digest : String → String) (enc : List JVal → Option (List (List ℝ))),
      c "content" = none →
      FastEmbedder.embed_chunks digest [c]
        = .ok [setField c "embedding" (.vec (List.replicate 384 0))] ∧
      ContextRagEmbedder.embed_chunks enc [c] = .error "KeyError" := by
  intro c digest enc h
  constructor
  · simp [FastEmbedder.embed_chunks, getContent, h, embed_text_empty]
  · simp [ContextRagEmbedder.embed_chunks, extractContents, h]

/-- Witness for C9 at the concrete empty chunk. -/
theorem strategies_disagree_on_missing_content_witness :
    FastEmbedder.embed_chunks (fun _ => "") [emptyChunk]
      = .ok [setField emptyChunk "embedding" (.vec (List.replicate 384 0))] ∧
    ContextRagEmbedder.embed_chunks (fun _ => none) [emptyChunk] = .error "KeyError" :=
  strategies_disagree_on_missing_content emptyChunk (fun _ => "") (fun _ => none) rfl

/-- C2: cache round-trip with identity check. After a call of
`embed_with_cache` persists an entry for key `k` under the current model
name `id` (uncached key, successful batch, successful write), a later
lookup for the same `k` with the same `id` returns the stored vector —
whatever its own oracle would compute — and a later call under a different
model name `id2 ≠ id` treats the entry as absent: its result is the result
it would produce had the entry not existed on disk (the vector is
regenerated). -/
theorem embed_with_cache_roundtrip :
    ∀ (id id2 : String) (sha sha2 sha3 : String → String)
      (enc enc2 enc3 : List String → Option (List (List ℝ)))
      (w w2 w3 : String → Bool) (st : CacheState)
      (text text2 text3 : String) (k : String) (v : List ℝ),
      st k = none →
      enc [text] = some [v] →
      w k = true →
      (embed_with_cache id sha enc w st text (some k)).out = .ok v ∧
      (embed_with_cache id sha enc w st text (some k)).cache k
          = some (.entry id k v) ∧
      (embed_with_cache id sha2 enc2 w2
          (embed_with_cache id sha enc w st text (some k)).cache text2 (some k)).out
        = .ok v ∧
      (id2 ≠ id →
        (embed_with_cache id2 sha3 enc3 w3
            (embed_with_cache id sha enc w st text (some k)).cache text3 (some k)).out
          = (embed_with_cache id2 sha3 enc3 w3
              (fun k2 => if k2 = k then none
                else (embed_with_cache id sha enc w st text (some k)).cache k2)
              text3 (some k)).out) := by
  intro id id2 sha sha2 sha3 enc enc2 enc3 w w2 w3 st text text2 text3 k v hst henc hw
  have hr : embed_with_cache id sha enc w st text (some k)
      = ⟨.ok v, fun k2 => if k2 = k then some (.entry id k v) else st k2, false, false⟩ := by
    simp [embed_with_cache, generate_embeddings, hst, henc, hw]
  refine ⟨by rw [hr], by rw [hr]; simp, by rw [hr]; simp [embed_with_cache], ?_⟩
  intro hne
  have hne2 : id ≠ id2 := fun hh => hne hh.symm
  rw [hr]
  simp [embed_with_cache, hne2]
  rcases hgen : generate_embeddings enc3 [text3] with ⟨es, warned⟩
  cases es with
  | nil => rfl
  | cons e tail => by_cases hw3 : w3 k = true <;> simp [hw3]

/-- Witness for C2 at concrete models, oracles, cache and key. -/
theorem embed_with_cache_roundtrip_witness :
    (embed_with_cache "m1" (fun _ => "h") (fun _ => some [[1]]) (fun _ => true)
        (fun _ => none) "t" (some "k")).out = .ok [1] ∧
    (embed_with_cache "m1" (fun _ => "h") (fun _ => some [[1]]) (fun _ => true)
        (fun _ => none) "t" (some "k")).cache "k" = some (.entry "m1" "k" [1]) ∧
    (embed_with_cache "m1" (fun _ => "h") (fun _ => none) (fun _ => true)
        (embed_with_cache "m1" (fun _ => "h") (fun _ => some [[1]]) (fun _ => true)
          (fun _ => none) "t" (some "k")).cache "t2" (some "k")).out = .ok [1] ∧
    ("m2" ≠ "m1" →
      (embed_with_cache "m2" (fun _ => "h") (fun _ => some [[2]]) (fun _ => true)
          (embed_with_cache "m1" (fun _ => "h") (fun _ => some [[1]]) (fun _ => true)
            (fun _ => none) "t" (some "k")).cache "t3" (some "k")).out
        = (embed_with_cache "m2" (fun _ => "h") (fun _ => some [[2]]) (fun _ => true)
            (fun k2 => if k2 = "k" then none
              else (embed_with_cache "m1" (fun _ => "h") (fun _ => some [[1]]) (fun _ => true)
                (fun _ => none) "t" (some "k")).cache k2) "t3" (some "k")).out) :=
  embed_with_cache_roundtrip "m1" "m2" (fun _ => "h") (fun _ => "h") (fun _ => "h")
    (fun _ => some [[1]]) (fun _ => none) (fun _ => some [[2]])
    (fun _ => true) (fun _ => true) (fun _ => true) (fun _ => none)
    "t" "t2" "t3" "k" [1] rfl rfl rfl

/-- C8: when the strategy's batch result is shorter than the chunk list (in
particular empty, on total-batch failure), `embed_chunks` returns exactly
the records paired up to the shorter length — no padding with placeholder
vectors, no error. -/
theorem embed_chunks_short_batch :
    ∀ (enc : List JVal → Option (List (List ℝ))) (chunks : List Chunk) (texts : List JVal),
      extractContents chunks = .ok texts →
      (generate_embeddings enc texts).1.length < chunks.length →
      ∃ l, ContextRagEmbedder.embed_chunks enc chunks = .ok l ∧
        l.length = (generate_embeddings enc texts).1.length ∧
        ∀ i, i < l.length →
          l.getD i emptyChunk
            = setField (chunks.getD i emptyChunk) "embedding"
                (.vec ((generate_embeddings enc texts).1.getD i [])) := by
  intro enc chunks texts hx hlen
  refine ⟨(chunks.zip (generate_embeddings enc texts).1).map
      (fun ce => setField ce.1 "embedding" (.vec ce.2)), ?_, ?_, ?_⟩
  · simp [ContextRagEmbedder.embed_chunks, hx]
  · simp only [List.length_map, List.length_zip]
    omega
  · intro i hi
    simp only [List.length_map, List.length_zip] at hi
    have hic : i < chunks.length := by omega
    have hie : i < (generate_embeddings enc texts).1.length := by omega
    have hiz : i < ((chunks.zip (generate_embeddings enc texts).1).map
        (fun ce => setField ce.1 "embedding" (.vec ce.2))).length := by
      simp only [List.length_map, List.length_zip]; omega
    rw [List.getD_eq_getElem _ _ hiz, List.getD_eq_getElem _ _ hic,
        List.getD_eq_getElem _ _ hie]
    simp [List.getElem_map, List.getElem_zip]

/-- Witness for C8: a one-chunk list whose batch call fails entirely. -/
theorem embed_chunks_short_batch_witness :
    ∃ l, ContextRagEmbedder.embed_chunks (fun _ => none)
        [fun k2 => if k2 = "content" then some (.str "x") else none] = .ok l ∧
      l.length = (generate_embeddings (fun _ => none) [JVal.str "x"]).1.length ∧
      ∀ i, i < l.length →
        l.getD i emptyChunk
          = setField (List.getD [fun k2 => if k2 = "content" then some (.str "x") else none]
                i emptyChunk) "embedding"
              (.vec ((generate_embeddings (fun _ => none) [JVal.str "x"]).1.getD i [])) :=
  embed_chunks_short_batch (fun _ => none)
    [fun k2 => if k2 = "content" then some (.str "x") else none] [JVal.str "x"]
    rfl (by decide)

/-- C6: on a chunk list whose batch does not fail (the batch result has one
vector per chunk), each of the two `embed_chunks` implementations returns
exactly as many records as chunks, in input order, each record keeping
every field other than `embedding` unchanged and carrying the new
`embedding` field (for `ContextRagEmbedder`, the vector paired with the
chunk's position). -/
theorem embed_chunks_preserves_order_and_fields :
    (∀ (enc : List JVal → Option (List (List ℝ))) (chunks : List Chunk) (texts : List JVal),
      extractContents chunks = .ok texts →
      (generate_embeddings enc texts).1.length = chunks.length →
      ∃ l, ContextRagEmbedder.embed_chunks enc chunks = .ok l ∧
        l.length = chunks.length ∧
        ∀ i, i < chunks.length →
          (∀ k2, k2 ≠ "embedding" →
            l.getD i emptyChunk k2 = chunks.getD i emptyChunk k2) ∧
          l.getD i emptyChunk "embedding"
            = some (.vec ((generate_embeddings enc texts).1.getD i []))) ∧
    (∀ (digest : String → String) (chunks : List Chunk),
      (∀ c ∈ chunks, ∃ s, getContent c = .ok s) →
      ∃ l, FastEmbedder.embed_chunks digest chunks = .ok l ∧
        l.length = chunks.length ∧
        ∀ i, i < chunks.length →
          (∀ k2, k2 ≠ "embedding" →
            l.getD i emptyChunk k2 = chunks.getD i emptyChunk k2) ∧
          (∃ e, l.getD i emptyChunk "embedding" = some (.vec e))) := by
  constructor
  · intro enc chunks texts hx hlen
    refine ⟨(chunks.zip (generate_embeddings enc texts).1).map
        (fun ce => setField ce.1 "embedding" (.vec ce.2)), ?_, ?_, ?_⟩
    · simp [ContextRagEmbedder.embed_chunks, hx]
    · simp only [List.length_map, List.length_zip]
      omega
    · intro i hi
      have hie : i < (generate_embeddings enc texts).1.length := by omega
      have hiz : i < ((chunks.zip (generate_embeddings enc texts).1).map
          (fun ce => setField ce.1 "embedding" (.vec ce.2))).length := by
        simp only [List.length_map, List.length_zip]; omega
      rw [List.getD_eq_getElem _ _ hiz, List.getD_eq_getElem _ _ hi,
          List.getD_eq_getElem _ _ hie]
      simp only [List.getElem_map, List.getElem_zip]
      exact ⟨fun k2 hk2 => by simp [setField, hk2], by simp [setField]⟩
  · intro digest chunks hall
    induction chunks with
    | nil => exact ⟨[], rfl, rfl, fun i hi => absurd hi (by simp)⟩
    | cons c cs ih =>
      obtain ⟨s, hs⟩ := hall c (List.mem_cons_self c cs)
      obtain ⟨l, hl, hlen2, hfields⟩ := ih (fun c2 h2 => hall c2 (List.mem_cons_of_mem _ h2))
      refine ⟨setField c "embedding" (.vec (embed_text digest s)) :: l, ?_,
        by simp [hlen2], ?_⟩
      · simp [FastEmbedder.embed_chunks, hs, hl]
      · intro i hi
        cases i with
        | zero =>
          refine ⟨fun k2 hk2 => ?_, ⟨embed_text digest s, ?_⟩⟩
          · simp [setField, hk2]
          · simp [setField]
        | succ n =>
          simp only [List.getD_cons_succ]
          exact hfields n (by simpa using hi)

/-- Witness for C6: a successful one-chunk batch for the model-backed
strategy and a one-chunk list for the hash strategy. -/
theorem embed_chunks_preserves_order_and_fields_witness :
    (∃ l, ContextRagEmbedder.embed_chunks (fun _ => some [[1]])
        [fun k2 => if k2 = "content" then some (.str "x") else none] = .ok l ∧
      l.length = 1 ∧
      ∀ i, i < 1 →
        (∀ k2, k2 ≠ "embedding" →
          l.getD i emptyChunk k2
            = List.getD [fun k2 => if k2 = "content" then some (JVal.str "x") else none]
                i emptyChunk k2) ∧
        l.getD i emptyChunk "embedding"
          = some (.vec ((generate_embeddings (fun _ => some [[1]]) [JVal.str "x"]).1.getD i []))) ∧
    (∃ l, FastEmbedder.embed_chunks (fun _ => "") [emptyChunk] = .ok l ∧
      l.length = 1 ∧
      ∀ i, i < 1 →
        (∀ k2, k2 ≠ "embedding" →
          l.getD i emptyChunk k2 = List.getD [emptyChunk] i emptyChunk k2) ∧
        (∃ e, l.getD i emptyChunk "embedding" = some (.vec e))) :=
  ⟨embed_chunks_preserves_order_and_fields.1 (fun _ => some [[1]])
      [fun k2 => if k2 = "content" then some (.str "x") else none] [JVal.str "x"]
      rfl rfl,
    embed_chunks_preserves_order_and_fields.2 (fun _ => "") [emptyChunk]
      (fun c hc => by
        rw [List.mem_singleton] at hc
        exact ⟨"", by rw [hc]; rfl⟩)⟩

/-- Helper: a hexadecimal digit's value is at most 15. -/
theorem hexDigit_le (c : Char) : hexDigit c ≤ 15 := by
  simp only [hexDigit]
  split
  · omega
  · split
    · omega
    · split
      · omega
      · omega

/-- Helper: every byte value read from 2-hex-character groups is ≤ 255. -/
theorem hexPairs_le : ∀ (l : List Char), ∀ b ∈ hexPairs l, b ≤ 255
  | [] => by simp [hexPairs]
  | [c] => by
      simp only [hexPairs, List.mem_singleton]
      intro b _hb
      have := hexDigit_le c
      omega
  | c1 :: c2 :: rest => by
      intro b hb
      simp only [hexPairs, List.mem_cons] at hb
      rcases hb with hb | hb
      · have h1 := hexDigit_le c1
        have h2 := hexDigit_le c2
        omega
      · exact hexPairs_le rest b hb

/-- Helper: `hexPairs` produces one value per 2 characters, rounded up. -/
theorem hexPairs_length : ∀ (l : List Char), (hexPairs l).length = (l.length + 1) / 2
  | [] => rfl
  | [c] => by simp [hexPairs]
  | c1 :: c2 :: rest => by
      simp only [hexPairs, List.length_cons, hexPairs_length rest]
      omega

/-- Helper: a rescaled byte value `b/255 - 0.5` is never zero, because
`2 * b = 255` has no integer solution. -/
theorem hash_component_ne_zero (b : ℕ) (_hb : b ≤ 255) : ((b : ℝ) / 255.0 - 0.5) ≠ 0 := by
  intro h
  have h1 : (b : ℝ) * 2 = 255 := by
    norm_num at h
    linarith
  have h2 : (b * 2 : ℕ) = 255 := by exact_mod_cast h1
  omega

/-- Helper: a sum of squares is nonnegative. -/
theorem sumsq_nonneg (v : List ℝ) : 0 ≤ (v.map (fun x => x ^ 2)).sum := by
  apply List.sum_nonneg
  intro x hx
  obtain ⟨y, _, rfl⟩ := List.mem_map.mp hx
  positivity

/-- Helper: a vector with a nonzero entry has positive L2 norm. -/
theorem l2norm_pos {v : List ℝ} {x : ℝ} (hx : x ∈ v) (hxne : x ≠ 0) : 0 < l2norm v := by
  unfold l2norm
  apply Real.sqrt_pos.mpr
  have hmem : x ^ 2 ∈ v.map (fun y => y ^ 2) := List.mem_map_of_mem _ hx
  have hle : x ^ 2 ≤ (v.map (fun y => y ^ 2)).sum :=
    List.single_le_sum (fun y hy => by
      obtain ⟨z, _, rfl⟩ := List.mem_map.mp hy
      positivity) _ hmem
  have hsq : 0 < x ^ 2 := by positivity
  linarith

/-- Helper: sum of squares after elementwise division by `c`. -/
theorem sumsq_map_div (v : List ℝ) (c : ℝ) :
    ((v.map (fun x => x / c)).map (fun x => x ^ 2)).sum
      = ((v.map (fun x => x ^ 2)).sum) * (c ^ 2)⁻¹ := by
  induction v with
  | nil => simp
  | cons a as ih =>
    simp only [List.map_cons, List.sum_cons, ih, add_mul, div_pow]
    rw [div_eq_mul_inv]

/-- Helper: L2 norm after elementwise division by a positive scalar. -/
theorem l2norm_map_div (v : List ℝ) (c : ℝ) (hc : 0 < c) :
    l2norm (v.map (fun x => x / c)) = l2norm v / c := by
  unfold l2norm
  rw [sumsq_map_div, Real.sqrt_mul (sumsq_nonneg v), Real.sqrt_inv,
    Real.sqrt_sq hc.le, div_eq_mul_inv]

/-- Helper: normalizing a vector of positive norm yields a unit vector. -/
theorem l2norm_normalize {v : List ℝ} (h : 0 < l2norm v) :
    l2norm (FastEmbedder.normalize v) = 1 := by
  unfold FastEmbedder.normalize
  rw [if_pos h, l2norm_map_div v _ h, div_self (ne_of_gt h)]

/-- Helper: for a 32-character digest, the pre-normalization word vector is
the 16 rescaled bytes followed by 368 zeros. -/
theorem word_pre_embedding_eq (digest : String → String) (word : String)
    (h : (digest word).length = 32) :
    word_pre_embedding digest word
      = ((hexPairs (digest word).toList).map (fun b : ℕ => (b : ℝ) / 255.0 - 0.5))
          ++ List.replicate 368 0 := by
  have hlen : (digest word).toList.length = 32 := h
  have htake : (digest word).toList.take (vocab_size * 2) = (digest word).toList :=
    List.take_of_length_le (by rw [hlen]; norm_num [vocab_size])
  have hplen : ((hexPairs (digest word).toList).map
      (fun b : ℕ => (b : ℝ) / 255.0 - 0.5)).length = 16 := by
    rw [List.length_map, hexPairs_length, hlen]
  simp only [word_pre_embedding, htake]
  rw [if_pos (by rw [hplen]; norm_num [vocab_size])]
  rw [hplen]
  rfl

/-- C3: for every token, provided the digest is a fixed-size 32-character
hex digest (as md5 hexdigest is), `get_word_embedding` equals the
reference definition: read consecutive 2-hex-character groups of the digest
as bytes, map each byte `b` to `b/255 - 0.5`, zero-pad or truncate to
exactly 384 values, and renormalize to unit L2 norm (a vector of norm
exactly zero would be left unchanged). -/
theorem get_word_embedding_matches_spec :
    ∀ (digest : String → String) (word : String),
      (digest word).length = 32 →
      get_word_embedding digest word = WordHasherSpec.specWordVector digest word := by
  intro digest word h
  have hfun : (fun b : ℕ => (b : ℝ) / 255.0 - 0.5) = fun b : ℕ => (b : ℝ) / 255 - 1 / 2 := by
    funext b
    norm_num
  have hlen : ((hexPairs (digest word).toList).map
      (fun b : ℕ => (b : ℝ) / 255 - 1 / 2)).length = 16 := by
    rw [List.length_map, hexPairs_length]
    have h2 : (digest word).toList.length = 32 := h
    rw [h2]
  have hplen2 : (hexPairs (digest word).data).length = 16 := by
    rw [hexPairs_length]
    have h2 : (digest word).data.length = 32 := h
    rw [h2]
  unfold get_word_embedding WordHasherSpec.specWordVector
  rw [word_pre_embedding_eq digest word h, hfun]
  congr 1
  rw [hlen]
  rw [List.take_of_length_le (by simp [hplen2])]

/-- Witness for C3 at a concrete 32-character digest and token. -/
theorem get_word_embedding_matches_spec_witness :
    FastEmbedder.get_word_embedding (fun _ => "00112233445566778899aabbccddeeff") "token"
      = WordHasherSpec.specWordVector (fun _ => "00112233445566778899aabbccddeeff") "token" :=
  get_word_embedding_matches_spec (fun _ => "00112233445566778899aabbccddeeff") "token" rfl

/-- C10: for every token, provided the digest is a fixed-size 32-character
hex digest, every digest-derived component `b/255 - 0.5` of the word vector
is nonzero, the pre-normalization vector has strictly positive L2 norm (so
the zero-norm fallback branch of `get_word_embedding` is unreachable), and
the returned word vector has unit L2 norm. -/
theorem word_vector_unit_norm :
    ∀ (digest : String → String) (word : String),
      (digest word).length = 32 →
      (∀ x ∈ (hexPairs (digest word).toList).map (fun b : ℕ => (b : ℝ) / 255.0 - 0.5), x ≠ 0) ∧
      0 < l2norm (word_pre_embedding digest word) ∧
      l2norm (get_word_embedding digest word) = 1 := by
  intro digest word h
  have hne : ∀ x ∈ (hexPairs (digest word).toList).map
      (fun b : ℕ => (b : ℝ) / 255.0 - 0.5), x ≠ 0 := by
    intro x hx
    obtain ⟨b, hb, rfl⟩ := List.mem_map.mp hx
    exact hash_component_ne_zero b (hexPairs_le _ b hb)
  have hpos : 0 < l2norm (word_pre_embedding digest word) := by
    rw [word_pre_embedding_eq digest word h]
    have hlen16 : ((hexPairs (digest word).toList).map
        (fun b : ℕ => (b : ℝ) / 255.0 - 0.5)).length = 16 := by
      rw [List.length_map, hexPairs_length]
      have h2 : (digest word).toList.length = 32 := h
      rw [h2]
    have hnil : (hexPairs (digest word).toList).map
        (fun b : ℕ => (b : ℝ) / 255.0 - 0.5) ≠ [] := by
      intro hemb
      rw [hemb] at hlen16
      simp at hlen16
    obtain ⟨x, hx⟩ := List.exists_mem_of_ne_nil _ hnil
    exact l2norm_pos (List.mem_append_left _ hx) (hne x hx)
  exact ⟨hne, hpos, l2norm_normalize hpos⟩

/-- Witness for C10 at a concrete 32-character digest and token. -/
theorem word_vector_unit_norm_witness :
    (∀ x ∈ (FastEmbedder.hexPairs (String.toList "00112233445566778899aabbccddeeff")).map
        (fun b : ℕ => (b : ℝ) / 255.0 - 0.5), x ≠ 0) ∧
    0 < FastEmbedder.l2norm
        (FastEmbedder.word_pre_embedding (fun _ => "00112233445566778899aabbccddeeff") "w") ∧
    FastEmbedder.l2norm
        (FastEmbedder.get_word_embedding (fun _ => "00112233445566778899aabbccddeeff") "w") = 1 :=
  word_vector_unit_norm (fun _ => "00112233445566778899aabbccddeeff") "w" rfl

/-- Helper: accumulating two vectors into an accumulator commutes (real
addition is commutative pointwise). -/
theorem vadd_right_comm (a x y : List ℝ) : vadd (vadd a x) y = vadd (vadd a y) x := by
  induction a generalizing x y with
  | nil => simp [vadd]
  | cons a0 as ih =>
    cases x with
    | nil => simp [vadd]
    | cons x0 xs =>
      cases y with
      | nil => simp [vadd]
      | cons y0 ys =>
        simp only [vadd, List.zipWith_cons_cons, List.cons.injEq]
        exact ⟨by ring, ih xs ys⟩

/-- Helper: a vector-accumulating fold is invariant under permutation of
the item list. -/
theorem foldl_vadd_perm (g : String × ℕ → List ℝ) {l1 l2 : List (String × ℕ)}
    (p : l1.Perm l2) (init : List ℝ) :
    l1.foldl (fun acc wc => vadd acc (g wc)) init
      = l2.foldl (fun acc wc => vadd acc (g wc)) init :=
  p.foldl_eq' (fun x _ y _ z => vadd_right_comm z (g x) (g y)) init

/-- Helper: `firstOcc` keeps exactly one copy of each element of the list. -/
theorem count_firstOcc (a : String) : ∀ (l : List String),
    (firstOcc l).count a = if a ∈ l then 1 else 0 := by
  intro l
  induction l using firstOcc.induct with
  | case1 => simp [firstOcc]
  | case2 w ws ih =>
    rw [firstOcc, List.count_cons, ih]
    by_cases haw : a = w
    · subst haw
      simp [List.mem_filter]
    · simp [List.mem_filter, haw]
      exact fun hh => haw hh.symm

/-- Helper: permuting a list permutes its first-occurrence dedup. -/
theorem firstOcc_perm {l1 l2 : List String} (p : l1.Perm l2) :
    (firstOcc l1).Perm (firstOcc l2) := by
  rw [List.perm_iff_count]
  intro a
  rw [count_firstOcc, count_firstOcc]
  simp [p.mem_iff]

/-- Helper: first-occurrence dedup is a permutation of `List.dedup`. -/
theorem firstOcc_perm_dedup (l : List String) : (firstOcc l).Perm l.dedup := by
  rw [List.perm_iff_count]
  intro a
  rw [count_firstOcc, List.count_dedup]

/-- Helper: permuting the token list permutes the `Counter` item list. -/
theorem counterItems_perm {l1 l2 : List String} (p : l1.Perm l2) :
    (counterItems l1).Perm (counterItems l2) := by
  unfold counterItems
  have h1 : ((firstOcc l1).map (fun w => (w, l1.count w))).Perm
      ((firstOcc l2).map (fun w => (w, l1.count w))) := (firstOcc_perm p).map _
  have h2 : (firstOcc l2).map (fun w => (w, l1.count w))
      = (firstOcc l2).map (fun w => (w, l2.count w)) :=
    List.map_congr_left (fun w _ => by rw [p.count_eq])
  rw [h2] at h1
  exact h1

/-- C4: `embed_text` equals the reference definition — lower-case and
tokenize into maximal alphanumeric/underscore runs, return the all-zero
384-vector on an empty token list, and otherwise renormalize the sum over
distinct tokens of (occurrences/total) times the token's word vector (the
reference iterates the distinct tokens in a different order) — and the
output depends only on the multiset of tokens, not their original order:
texts with permuted token lists embed identically. -/
theorem embed_text_matches_spec :
    (∀ (digest : String → String) (text : String),
      embed_text digest text = TextAggregatorSpec.specEmbedText digest text) ∧
    (∀ (digest : String → String) (t1 t2 : String),
      (tokenize t1).Perm (tokenize t2) →
      embed_text digest t1 = embed_text digest t2) := by
  constructor
  · intro digest text
    unfold embed_text TextAggregatorSpec.specEmbedText
    by_cases h : tokenize text = []
    · simp [h, vocab_size]
    · rw [if_neg h, if_neg h]
      simp only [vocab_size]
      have hp : (counterItems (tokenize text)).Perm
          ((tokenize text).dedup.map (fun w => (w, (tokenize text).count w))) := by
        unfold counterItems
        exact (firstOcc_perm_dedup (tokenize text)).map _
      exact congrArg FastEmbedder.normalize (foldl_vadd_perm _ hp _)
  · intro digest t1 t2 p
    have hlen : (tokenize t1).length = (tokenize t2).length := p.length_eq
    unfold embed_text
    by_cases h : tokenize t1 = []
    · have h2 : tokenize t2 = [] := by
        rw [h] at p
        exact (p.symm).eq_nil
      rw [h, h2]
    · have h2 : tokenize t2 ≠ [] := by
        intro hh
        rw [hh] at p
        exact h p.eq_nil
      rw [if_neg h, if_neg h2, hlen]
      exact congrArg FastEmbedder.normalize (foldl_vadd_perm _ (counterItems_perm p) _)

/-- Witness for C4: the texts from the spec's token-order-independence
example, whose token lists are permutations of each other. -/
theorem embed_text_matches_spec_witness :
    FastEmbedder.embed_text (fun _ => "00112233445566778899aabbccddeeff") "a b a"
      = FastEmbedder.embed_text (fun _ => "00112233445566778899aabbccddeeff") "a a b" :=
  embed_text_matches_spec.2 (fun _ => "00112233445566778899aabbccddeeff") "a b a" "a a b"
    (by decide)

end Theorems
